import Mathlib

/-!
# Verification of the Pest-Detection prototypical-classification engine

Shallow embedding of the core logic of the repository:

* `python_ml_service/serve.py` — the `/api/v1/detect` arbitration cascade and
  the `/api/v1/learn` few-shot learning endpoint (numeric values modelled as `ℚ`,
  since that code only adds, multiplies and compares floats);
* `python_ml_service/ml/utils.py` and `ml/inference.py` — embedding
  normalization, cosine similarity, risk tiers and `classify_embedding`
  (modelled over `ℝ`, because `np.linalg.norm` takes a square root);
* `python_ml_service/training/dataset.py` — `EpisodicBatchSampler`
  (`torch.randperm` is modelled by an arbitrary permutation supplied as input);
* `python_ml_service/training/train.py` — `PrototypicalLoss.forward`
  (distances are modelled by squared Euclidean distances, which have the same
  argmin and the same index sets as `torch.cdist`; the `log_probs` gather by
  raw query labels is modelled by its in-bounds guard, since an out-of-range
  gather raises `IndexError` in PyTorch before loss or accuracy are produced).
-/

/-! ## serve.py: classification loop and arbitration cascade -/

/-- `np.dot` on two equal-length vectors (`serve.py` line 295). -/
def dotQ (xs ys : List ℚ) : ℚ :=
  (List.zipWith (· * ·) xs ys).sum

/-- The nearest-prototype loop of `serve.py` `detect_disease` (lines 283-302):
`best_match` starts at `None`, `best_similarity` and `second_best_similarity`
start at `-1`; each prototype's dot product with the query embedding updates
the running triple. -/
def serveBestMatch (emb : List ℚ) (protos : List (String × List ℚ)) :
    Option String × ℚ × ℚ :=
  protos.foldl
    (fun st p =>
      let sim := dotQ emb p.2
      if st.2.1 < sim then (some p.1, sim, st.2.1)
      else if st.2.2 < sim then (st.1, st.2.1, sim)
      else st)
    (none, -1, -1)

/-- A parsed answer of the external vision oracle (`detect_with_ai_vision`):
`plant`, `disease_name` and `confidence` as used by the arbitration logic.
A `None` return (API failure or unparseable/falsy content) is modelled as
`Option.none` at the call site. -/
structure AiResult where
  plant : String
  disease : String
  confidence : ℚ
  deriving DecidableEq

/-- `needle.isPrefix of haystack` on character lists (helper for Python's
substring operator `in`). -/
def charsHasPre : List Char → List Char → Bool
  | [], _ => true
  | _ :: _, [] => false
  | a :: p, b :: s => a == b && charsHasPre p s

/-- Python's substring test `pat in hay` on character lists. -/
def charsHasSub (p : List Char) : List Char → Bool
  | [] => p.isEmpty
  | b :: rest => charsHasPre p (b :: rest) || charsHasSub p rest

/-- Python's substring operator: `pat in hay`. -/
def strContains (hay pat : String) : Bool :=
  charsHasSub pat.data hay.data

/-- `serve.py` line 353: the plant type of the local prediction,
`best_match.split("___")[0] if "___" in best_match else best_match.split("_")[0]`. -/
def modelPlantOf (bestMatch : String) : String :=
  if strContains bestMatch "___" then (bestMatch.splitOn "___").headD bestMatch
  else (bestMatch.splitOn "_").headD bestMatch

/-- The five-rule arbitration cascade of `serve.py` `detect_disease`
(lines 359-385).  Every branch of the Python `if/elif/else` sets
`use_gemini = True`; the conditions are kept so the rule structure of the
source is preserved. -/
def cascadeUseGemini (r : AiResult) (bestMatch : String) (bestSim : ℚ) : Bool :=
  let aiPlantL := r.plant.toLower
  let aiDiseaseL := r.disease.toLower
  let modelPlantL := (modelPlantOf bestMatch).toLower
  -- RULE 1: plant types do not overlap in either direction
  if !strContains aiPlantL modelPlantL && !strContains modelPlantL aiPlantL then true
  -- RULE 2: the oracle says the image is not a plant
  else if strContains aiPlantL "not a plant" || strContains aiDiseaseL "not a plant" then true
  -- RULE 3: local confidence below the 0.80 trust threshold
  else if bestSim < 4/5 then true
  -- RULE 4: external confidence strictly above local confidence
  else if bestSim < r.confidence then true
  -- RULE 5: default
  else true

/-- The user-facing outcome of `detect_disease`: the external (AI) result,
the explicit "Unknown - AI Unavailable" result, or the local model result.
Each carries the `confidence` field of the returned `DetectionResponse`. -/
inductive DetectOutcome where
  | externalResult (disease : String) (conf : ℚ)
  | verificationUnavailable (conf : ℚ)
  | localModelResult (bestMatch : String) (conf : ℚ)
  deriving DecidableEq

/-- The decision structure of `detect_disease` after classification
(`serve.py` lines 325-432): if the oracle failed and local similarity is
below 0.90, return the "Unknown - AI Unavailable" response (confidence =
`best_similarity`); if the oracle answered, run the cascade (external result
carries `f"{disease} (AI Detection)"` and the oracle confidence); otherwise
fall through to the local model response (confidence = `best_similarity`). -/
def detectArbitrate (ai : Option AiResult) (bestMatch : String) (bestSim : ℚ) :
    DetectOutcome :=
  match ai with
  | none =>
      if bestSim < 9/10 then .verificationUnavailable bestSim
      else .localModelResult bestMatch bestSim
  | some r =>
      if cascadeUseGemini r bestMatch bestSim then
        .externalResult (r.disease ++ " (AI Detection)") r.confidence
      else .localModelResult bestMatch bestSim

/-- The whole `/api/v1/detect` decision pipeline on an already-computed
embedding: `None` models the HTTP 503 (empty prototype store) and the
HTTP 500 (no best match found) early exits. -/
def serveDetect (protos : List (String × List ℚ)) (emb : List ℚ)
    (ai : Option AiResult) : Option DetectOutcome :=
  if protos.isEmpty then none
  else
    match serveBestMatch emb protos with
    | (none, _, _) => none
    | (some m, best, _) => some (detectArbitrate ai m best)

/-! ## serve.py: few-shot learning endpoint -/

/-- Elementwise vector sum (`np.mean` accumulation). -/
def addVec (xs ys : List ℚ) : List ℚ :=
  List.zipWith (· + ·) xs ys

/-- `np.mean(embeddings, axis=0)`: the elementwise arithmetic mean of a list
of equal-length vectors. -/
def meanVec (vs : List (List ℚ)) : List ℚ :=
  match vs with
  | [] => []
  | v :: rest => (rest.foldl addVec v).map (fun x => x / (vs.length : ℚ))

/-- The validation failures of `learn_new_species` (`serve.py` lines 469-483),
both reported as HTTP 400. -/
inductive LearnError where
  | badSampleCount
  | duplicateSpecies
  deriving DecidableEq

/-- File-system operations performed by the service, used to model the
persistence behaviour of the learn endpoint. -/
inductive FsOp where
  | openTrunc (path : String)
  | writeAll (path : String) (content : List (String × List ℚ))
  | closeFile (path : String)
  | renameFile (src dst : String)
  deriving DecidableEq

/-- The prototype file path used by `learn_new_species` (`class_prototypes.json`). -/
def protoPath : String := "class_prototypes.json"

/-- `learn_new_species` (`serve.py` lines 456-537): reject when the sample
count is outside 5..10 or the class name already exists (leaving the store
untouched and performing no file operation); otherwise embed every image,
store the mean embedding under the new name, and rewrite the whole prototype
file in place with `open(path, 'w')` — modelled as open-truncate, write of the
whole serialized store, close.  Returns (result, updated store, file ops). -/
def learnStep {Img : Type} (embed : Img → List ℚ)
    (store : List (String × List ℚ)) (name : String) (images : List Img) :
    Except LearnError (List ℚ) × List (String × List ℚ) × List FsOp :=
  if images.length < 5 ∨ 10 < images.length then
    (.error .badSampleCount, store, [])
  else if (store.lookup name).isSome then
    (.error .duplicateSpecies, store, [])
  else
    let proto := meanVec (images.map embed)
    let newStore := store ++ [(name, proto)]
    (.ok proto, newStore,
      [.openTrunc protoPath, .writeAll protoPath newStore, .closeFile protoPath])

/-- Following the spec's words (§4.4): an atomic write-then-swap persistence
consists of writing the whole store to a temporary file distinct from the
target and then renaming it into place.  Used only to compare the code's
persistence trace against the specified shape. -/
def writeThenSwapShape (ops : List FsOp) (target : String) : Prop :=
  ∃ tmp content, tmp ≠ target ∧
    ops = [FsOp.writeAll tmp content, FsOp.renameFile tmp target]

/-! ## training/dataset.py: EpisodicBatchSampler -/

/-- One step of the index-grouping loop of `EpisodicBatchSampler.__init__`
(lines 156-160): append index `i` to the list of label `l`, creating the
entry at the end if the label is new (Python dict insertion order). -/
def addIndex : List (ℕ × List ℕ) → ℕ → ℕ → List (ℕ × List ℕ)
  | [], l, i => [(l, [i])]
  | (k, js) :: rest, l, i =>
      if k = l then (k, js ++ [i]) :: rest else (k, js) :: addIndex rest l i

/-- `self.class_indices`: indices of the dataset grouped by label, in label
first-occurrence order, each class list in index order. -/
def classIndices (labels : List ℕ) : List (ℕ × List ℕ) :=
  labels.enum.foldl (fun acc p => addIndex acc p.2 p.1) []

/-- The sample indices recorded for class `cls` (`self.class_indices[cls]`). -/
def lookupIndices (labels : List ℕ) (cls : ℕ) : List ℕ :=
  ((classIndices labels).lookup cls).getD []

/-- `self.valid_classes`: the classes with at least `minSamples` available
samples (lines 162-167). -/
def validClasses (labels : List ℕ) (minSamples : ℕ) : List ℕ :=
  (((classIndices labels).filter (fun p => minSamples ≤ p.2.length)).map Prod.fst)

/-- `episode_classes` (lines 180-181): `torch.randperm(len(valid_classes))`
is modelled by the supplied list `classPerm`; the first `numClasses` positions
select classes from `valid_classes`. -/
def chosenClasses (labels : List ℕ) (numClasses numSupport numQuery : ℕ)
    (classPerm : List ℕ) : List ℕ :=
  (classPerm.take numClasses).map
    (fun i => (validClasses labels (numSupport + numQuery)).getD i 0)

/-- The samples drawn for one chosen class (lines 185-188):
`torch.randperm(len(cls_indices))` is modelled by the supplied list `idxPerm`;
the first `K+Q` positions select sample indices from `cls_indices`. -/
def drawnFor (labels : List ℕ) (numSupport numQuery : ℕ)
    (idxPerm : List ℕ) (cls : ℕ) : List ℕ :=
  (idxPerm.take (numSupport + numQuery)).map
    (fun j => (lookupIndices labels cls).getD j 0)

/-- One full episode batch (`__iter__` body): the concatenated draws of every
chosen class. -/
def episodeBatch (labels : List ℕ) (numClasses numSupport numQuery : ℕ)
    (classPerm : List ℕ) (idxPerms : ℕ → List ℕ) : List ℕ :=
  (chosenClasses labels numClasses numSupport numQuery classPerm).flatMap
    (fun cls => drawnFor labels numSupport numQuery (idxPerms cls) cls)

/-! ## training/train.py: PrototypicalLoss.forward -/

/-- Insert into a sorted list (ascending). -/
def insertSorted (x : ℕ) : List ℕ → List ℕ
  | [] => [x]
  | y :: ys => if x ≤ y then x :: y :: ys else y :: insertSorted x ys

/-- `torch.unique(labels)`: the distinct label values in ascending order. -/
def sortedUnique (labels : List ℕ) : List ℕ :=
  labels.foldr (fun x acc => if x ∈ acc then acc else insertSorted x acc) []

/-- `torch.where(labels == l)[0]`: the positions holding label `l`,
in ascending order. -/
def occIndices (labels : List ℕ) (l : ℕ) : List ℕ :=
  (labels.enum.filter (fun p => p.2 = l)).map Prod.fst

/-- `support_idx` (train.py lines 72-79): for each distinct label in sorted
order, the first `numSupport` positions holding it. -/
def supportIdx (labels : List ℕ) (numSupport : ℕ) : List ℕ :=
  (sortedUnique labels).flatMap (fun l => (occIndices labels l).take numSupport)

/-- `query_idx` (train.py line 80): for each distinct label in sorted order,
all remaining positions holding it. -/
def queryIdx (labels : List ℕ) (numSupport : ℕ) : List ℕ :=
  (sortedUnique labels).flatMap (fun l => (occIndices labels l).drop numSupport)

/-- `support_labels = labels[support_idx]`. -/
def protoSupportLabels (labels : List ℕ) (numSupport : ℕ) : List ℕ :=
  (supportIdx labels numSupport).map (fun i => labels.getD i 0)

/-- `query_labels = labels[query_idx]`. -/
def protoQueryLabels (labels : List ℕ) (numSupport : ℕ) : List ℕ :=
  (queryIdx labels numSupport).map (fun i => labels.getD i 0)

/-- `torch.unique(support_labels)`: the labels owning a prototype, in
ascending order; the prototype at position `p` belongs to the `p`-th label of
this list. -/
def protoPrototypeLabels (labels : List ℕ) (numSupport : ℕ) : List ℕ :=
  sortedUnique (protoSupportLabels labels numSupport)

/-- `prototypes` (train.py lines 87-95): for each distinct support label, the
mean of the support embeddings carrying that label. -/
def protoPrototypes (emb : List (List ℚ)) (labels : List ℕ) (numSupport : ℕ) :
    List (List ℚ) :=
  (protoPrototypeLabels labels numSupport).map (fun l =>
    meanVec (((supportIdx labels numSupport).map
        (fun i => (emb.getD i [], labels.getD i 0))).filterMap
      (fun p => if p.2 = l then some p.1 else none)))

/-- Squared Euclidean distance; `torch.cdist` computes its square root, which
has the same argmin and the same comparison order. -/
def sqDist (xs ys : List ℚ) : ℚ :=
  (List.zipWith (fun a b => (a - b) * (a - b)) xs ys).sum

/-- The (squared) distance matrix from every query embedding to every
episode-local prototype (train.py line 98). -/
def protoDistances (emb : List (List ℚ)) (labels : List ℕ) (numSupport : ℕ) :
    List (List ℚ) :=
  (queryIdx labels numSupport).map (fun i =>
    (protoPrototypes emb labels numSupport).map (fun p => sqDist (emb.getD i []) p))

/-- `torch.argmin` over one row: the position of the first minimum. -/
def argminFirstQ : List ℚ → ℕ
  | [] => 0
  | [_] => 0
  | x :: y :: ys =>
      let j := argminFirstQ (y :: ys)
      if (y :: ys).getD j 0 < x then j + 1 else 0

/-- `predictions = torch.argmin(distances, dim=1)` (train.py line 105). -/
def protoPredictions (emb : List (List ℚ)) (labels : List ℕ) (numSupport : ℕ) :
    List ℕ :=
  (protoDistances emb labels numSupport).map argminFirstQ

/-- `accuracy = (predictions == query_labels).float().mean()` (line 106):
note the raw query labels are compared against prototype *positions*. -/
def protoAccuracy (emb : List (List ℚ)) (labels : List ℕ) (numSupport : ℕ) : ℚ :=
  (((protoPredictions emb labels numSupport).zip
      (protoQueryLabels labels numSupport)).countP
    (fun p => p.1 == p.2) : ℚ) / ((protoQueryLabels labels numSupport).length : ℚ)

/-- `PrototypicalLoss.forward` (train.py lines 51-108) at the level of its
observable results: the loss gather `log_probs[range(len(query_labels)),
query_labels]` (line 102) indexes the prototype dimension with the *raw*
query labels, so whenever some query label is not below the number of
episode prototypes, PyTorch raises `IndexError` before loss or accuracy are
produced — modelled as `none`.  Otherwise the predictions and the accuracy
are returned. -/
def protoForward (emb : List (List ℚ)) (labels : List ℕ) (numSupport : ℕ) :
    Option (List ℕ × ℚ) :=
  if (protoQueryLabels labels numSupport).all
      (fun l => l < (protoPrototypes emb labels numSupport).length) then
    some (protoPredictions emb labels numSupport, protoAccuracy emb labels numSupport)
  else none

/-! ## ml/utils.py and ml/inference.py (over ℝ) -/

/-- `np.dot` on real vectors. -/
def dotR (xs ys : List ℝ) : ℝ :=
  (List.zipWith (· * ·) xs ys).sum

/-- The sum of squared entries of a vector. -/
def sumSq (xs : List ℝ) : ℝ :=
  (xs.map (fun x => x * x)).sum

/-- `np.linalg.norm(embedding)`: the Euclidean norm. -/
noncomputable def l2norm (xs : List ℝ) : ℝ :=
  Real.sqrt (sumSq xs)

/-- `normalize_embedding` (utils.py lines 123-136): return the vector
unchanged when its norm is zero, else divide every entry by the norm. -/
noncomputable def normalize_embedding (xs : List ℝ) : List ℝ :=
  if l2norm xs = 0 then xs else xs.map (fun x => x / l2norm xs)

/-- `compute_cosine_similarity` (utils.py lines 139-157): normalize the query
and every prototype, then take the dot product of each normalized prototype
with the normalized query. -/
noncomputable def compute_cosine_similarity (query : List ℝ)
    (protos : List (List ℝ)) : List ℝ :=
  (protos.map normalize_embedding).map (fun p => dotR p (normalize_embedding query))

/-- `determine_risk_level` (utils.py lines 160-183). -/
noncomputable def determine_risk_level (confidence : ℝ) : String :=
  if confidence ≥ 0.95 then "critical"
  else if confidence ≥ 0.80 then "high"
  else if confidence ≥ 0.60 then "medium"
  else "low"

/-- `np.argmax` over one row: the position of the first maximum. -/
noncomputable def argmaxFirst : List ℝ → ℕ
  | [] => 0
  | [_] => 0
  | x :: y :: ys =>
      let j := argmaxFirst (y :: ys)
      if x < (y :: ys).getD j 0 then j + 1 else 0

/-- The two failure modes of `classify_embedding` (inference.py lines 100-118):
no prototypes supplied, or an embedding whose length is not 512.  The
prototype-dimension case covers both the explicit `shape[1] != 512` check and
the `np.array` inhomogeneous-shape failure for ragged candidate lists; both
surface to the caller as errors. -/
inductive ClassifyError where
  | emptyCandidates
  | dimensionMismatch
  deriving DecidableEq

/-- `classify_embedding` (inference.py lines 79-147): validate the candidate
set and dimensions, compute cosine similarities, select the first-best match
by `np.argmax`, shift the chosen similarity to `(s + 1) / 2`, and attach the
risk tier. -/
noncomputable def classify_embedding (query : List ℝ)
    (protos : List (String × List ℝ)) : Except ClassifyError (String × ℝ × String) :=
  if protos.isEmpty then .error .emptyCandidates
  else if query.length ≠ 512 then .error .dimensionMismatch
  else if protos.any (fun p => p.2.length ≠ 512) then .error .dimensionMismatch
  else
    let sims := compute_cosine_similarity query (protos.map Prod.snd)
    let bestIdx := argmaxFirst sims
    let s := sims.getD bestIdx 0
    let conf := (s + 1) / 2
    .ok ((protos.map Prod.fst).getD bestIdx "", conf, determine_risk_level conf)

/-- A concrete unit-norm 512-dimensional embedding, used to evaluate
`classify_embedding` at a valid input. -/
def eOne : List ℝ := 1 :: List.replicate 511 0

/-! # Theorems -/

/-- **C1.** In `detect_disease`, whenever the external oracle returns a
parseable result, every rule of the arbitration cascade — including the
default rule — sets `use_gemini`, and the returned response is the external
oracle's result with the oracle's confidence, for every local prediction and
similarity. -/
theorem arbitration_cascade_always_external
    (r : AiResult) (bestMatch : String) (bestSim : ℚ) :
    cascadeUseGemini r bestMatch bestSim = true ∧
      detectArbitrate (some r) bestMatch bestSim =
        .externalResult (r.disease ++ " (AI Detection)") r.confidence := by
  have hcg : cascadeUseGemini r bestMatch bestSim = true := by
    simp [cascadeUseGemini]
  exact ⟨hcg, by simp [detectArbitrate, hcg]⟩

/-- **C1 witness.** The cascade and arbitration evaluated at a concrete
oracle answer and local prediction. -/
theorem arbitration_cascade_always_external_witness :
    cascadeUseGemini ⟨"Tomato", "Early Blight", 17/20⟩ "Tomato___Late_blight" (23/25) = true ∧
      detectArbitrate (some ⟨"Tomato", "Early Blight", 17/20⟩) "Tomato___Late_blight" (23/25) =
        .externalResult ("Early Blight" ++ " (AI Detection)") (17/20) :=
  arbitration_cascade_always_external ⟨"Tomato", "Early Blight", 17/20⟩ "Tomato___Late_blight" (23/25)

/-- **C2.** When the oracle call fails or is unparseable (`ai_result` falsy),
`detect_disease` returns the local model result exactly when the local
similarity is at least 0.90, and the explicit "Unknown - AI Unavailable"
result exactly when it is below 0.90. -/
theorem oracle_failure_fallback_policy (bestMatch : String) (bestSim : ℚ) :
    (detectArbitrate none bestMatch bestSim = .localModelResult bestMatch bestSim
        ↔ 9/10 ≤ bestSim) ∧
    (detectArbitrate none bestMatch bestSim = .verificationUnavailable bestSim
        ↔ bestSim < 9/10) := by
  unfold detectArbitrate
  rcases lt_or_le bestSim (9/10) with h | h
  · rw [if_pos h]
    constructor
    · constructor
      · intro heq; cases heq
      · intro hle; linarith
    · simp [h]
  · rw [if_neg (not_lt.mpr h)]
    constructor
    · simp [h]
    · constructor
      · intro heq; cases heq
      · intro hlt; linarith

/-- **C3 counterexample.** A detection produced by `serve.py` whose reported
confidence is the raw best similarity `s = 19/20` rather than
`(s + 1) / 2 = 39/40`: the claim that every classification the system
produces reports `(s + 1) / 2` is false on the `detect_disease` path. -/
theorem serve_confidence_is_raw_similarity :
    serveDetect [("a", [1, 0])] [19/20, 0] none =
      some (.localModelResult "a" (19/20)) ∧
    ((19 : ℚ)/20 + 1) / 2 ≠ 19/20 := by
  have hbm : serveBestMatch [19/20, 0] [("a", [1, 0])] = (some "a", 19/20, -1) := by
    simp [serveBestMatch, dotQ]
    norm_num
  constructor
  · simp [serveDetect, hbm, detectArbitrate]
    norm_num
  · norm_num

/-- **C5.** `learn_new_species` fails (with the sample-count error or the
duplicate-species error, in that order) exactly when the number of sample
images is below 5 or above 10 or the class name already exists; on every
failure the in-memory store is unchanged and no file operation is performed,
so a duplicate class name never overwrites the existing prototype or the
persisted file. -/
theorem learn_rejects_invalid_requests {Img : Type} (embed : Img → List ℚ)
    (store : List (String × List ℚ)) (name : String) (images : List Img) :
    ((learnStep embed store name images).1.isOk = false ↔
      images.length < 5 ∨ 10 < images.length ∨ (store.lookup name).isSome = true) ∧
    ((learnStep embed store name images).1.isOk = false →
      (learnStep embed store name images).2.1 = store ∧
      (learnStep embed store name images).2.2 = []) := by
  unfold learnStep
  split_ifs with h1 h2
  · exact ⟨⟨fun _ => h1.elim (fun h => Or.inl h) (fun h => Or.inr (Or.inl h)),
      fun _ => rfl⟩, fun _ => ⟨rfl, rfl⟩⟩
  · exact ⟨⟨fun _ => Or.inr (Or.inr h2), fun _ => rfl⟩, fun _ => ⟨rfl, rfl⟩⟩
  · refine ⟨⟨fun hfalse => absurd hfalse (by simp [Except.isOk, Except.toBool]),
      fun hcond => ?_⟩, fun hfalse => absurd hfalse (by simp [Except.isOk, Except.toBool])⟩
    rcases hcond with h | h | h
    · exact absurd (Or.inl h) h1
    · exact absurd (Or.inr h) h1
    · exact absurd h h2

/-- **C5 witness.** Learning a class name that already exists is rejected and
leaves the store and the file untouched. -/
theorem learn_rejects_invalid_requests_witness :
    ((learnStep (fun _ : Unit => [(1 : ℚ)]) [("aphid", [(1 : ℚ)])] "aphid"
        [(), (), (), (), ()]).1.isOk = false ↔
      ([(), (), (), (), ()] : List Unit).length < 5 ∨
        10 < ([(), (), (), (), ()] : List Unit).length ∨
        (([("aphid", [(1 : ℚ)])].lookup "aphid").isSome = true)) ∧
    ((learnStep (fun _ : Unit => [(1 : ℚ)]) [("aphid", [(1 : ℚ)])] "aphid"
        [(), (), (), (), ()]).1.isOk = false →
      (learnStep (fun _ : Unit => [(1 : ℚ)]) [("aphid", [(1 : ℚ)])] "aphid"
          [(), (), (), (), ()]).2.1 = [("aphid", [(1 : ℚ)])] ∧
      (learnStep (fun _ : Unit => [(1 : ℚ)]) [("aphid", [(1 : ℚ)])] "aphid"
          [(), (), (), (), ()]).2.2 = []) :=
  learn_rejects_invalid_requests (fun _ : Unit => [(1 : ℚ)])
    [("aphid", [(1 : ℚ)])] "aphid" [(), (), (), (), ()]

/-- **C6 counterexample.** A successful learn mutation whose persistence
trace is *not* a write-then-swap: the code rewrites `class_prototypes.json`
in place with `open(path, 'w')`, so the claimed temporary-file-plus-rename
persistence shape is false already on this concrete run. -/
theorem learn_persist_not_write_then_swap :
    (learnStep (fun _ : Unit => [(1 : ℚ)]) [] "aphid" [(), (), (), (), ()]).1.isOk = true ∧
    ¬ writeThenSwapShape
        (learnStep (fun _ : Unit => [(1 : ℚ)]) [] "aphid" [(), (), (), (), ()]).2.2
        protoPath := by
  have hops : (learnStep (fun _ : Unit => [(1 : ℚ)]) [] "aphid" [(), (), (), (), ()]).2.2
      = [FsOp.openTrunc protoPath,
         FsOp.writeAll protoPath [("aphid", meanVec [[1], [1], [1], [1], [1]])],
         FsOp.closeFile protoPath] := by
    simp [learnStep, List.lookup]
  constructor
  · simp [learnStep, List.lookup, Except.isOk, Except.toBool]
  · rw [hops]
    rintro ⟨tmp, c, hne, heq⟩
    simpa using congrArg List.length heq

/-- **C6 amended.** After every successful learn mutation the prototype store
is persisted synchronously by truncating and rewriting
`class_prototypes.json` in place with the whole serialized updated store; no
temporary file and no rename are involved, so the write is not the atomic
write-then-swap described by the spec. -/
theorem learn_persist_in_place {Img : Type} (embed : Img → List ℚ)
    (store : List (String × List ℚ)) (name : String) (images : List Img)
    (hok : (learnStep embed store name images).1.isOk = true) :
    (learnStep embed store name images).2.2 =
      [FsOp.openTrunc protoPath,
       FsOp.writeAll protoPath (learnStep embed store name images).2.1,
       FsOp.closeFile protoPath] ∧
    ¬ writeThenSwapShape (learnStep embed store name images).2.2 protoPath := by
  unfold learnStep at hok ⊢
  split_ifs at hok ⊢ with h1 h2
  · exact absurd hok (by simp [Except.isOk, Except.toBool])
  · exact absurd hok (by simp [Except.isOk, Except.toBool])
  · refine ⟨rfl, ?_⟩
    rintro ⟨tmp, c, hne, heq⟩
    simpa using congrArg List.length heq

/-- **C6 amended witness.** The in-place persistence trace of a concrete
successful learn call. -/
theorem learn_persist_in_place_witness :
    (learnStep (fun _ : Unit => [(2 : ℚ)]) [] "mite" [(), (), (), (), (), ()]).2.2 =
      [FsOp.openTrunc protoPath,
       FsOp.writeAll protoPath
         (learnStep (fun _ : Unit => [(2 : ℚ)]) [] "mite" [(), (), (), (), (), ()]).2.1,
       FsOp.closeFile protoPath] ∧
    ¬ writeThenSwapShape
        (learnStep (fun _ : Unit => [(2 : ℚ)]) [] "mite" [(), (), (), (), (), ()]).2.2
        protoPath :=
  learn_persist_in_place (fun _ : Unit => [(2 : ℚ)]) [] "mite"
    [(), (), (), (), (), ()]
    (by simp [learnStep, List.lookup, Except.isOk, Except.toBool])

/-- **C4.** `determine_risk_level` returns exactly: `critical` when
`c ≥ 0.95`; `high` when `0.80 ≤ c < 0.95`; `medium` when `0.60 ≤ c < 0.80`;
`low` when `c < 0.60` — every breakpoint inclusive on the lower bound. -/
theorem determine_risk_level_breakpoints (c : ℝ) :
    (determine_risk_level c = "critical" ↔ 0.95 ≤ c) ∧
    (determine_risk_level c = "high" ↔ 0.80 ≤ c ∧ c < 0.95) ∧
    (determine_risk_level c = "medium" ↔ 0.60 ≤ c ∧ c < 0.80) ∧
    (determine_risk_level c = "low" ↔ c < 0.60) := by
  unfold determine_risk_level
  split_ifs with h1 h2 h3
  · exact ⟨⟨fun _ => h1, fun _ => rfl⟩,
      ⟨fun hs => absurd hs (by decide), fun hc => absurd h1 (not_le.mpr hc.2)⟩,
      ⟨fun hs => absurd hs (by decide),
        fun hc => absurd h1 (not_le.mpr (lt_of_lt_of_le hc.2 (by norm_num)))⟩,
      ⟨fun hs => absurd hs (by decide),
        fun hc => absurd h1 (not_le.mpr (lt_of_lt_of_le hc (by norm_num)))⟩⟩
  · exact ⟨⟨fun hs => absurd hs (by decide), fun hc => absurd hc h1⟩,
      ⟨fun _ => ⟨h2, not_le.mp h1⟩, fun _ => rfl⟩,
      ⟨fun hs => absurd hs (by decide), fun hc => absurd h2 (not_le.mpr hc.2)⟩,
      ⟨fun hs => absurd hs (by decide),
        fun hc => absurd h2 (not_le.mpr (lt_of_lt_of_le hc (by norm_num)))⟩⟩
  · exact ⟨⟨fun hs => absurd hs (by decide), fun hc => absurd hc h1⟩,
      ⟨fun hs => absurd hs (by decide), fun hc => absurd hc.1 h2⟩,
      ⟨fun _ => ⟨h3, not_le.mp h2⟩, fun _ => rfl⟩,
      ⟨fun hs => absurd hs (by decide), fun hc => absurd h3 (not_le.mpr hc)⟩⟩
  · exact ⟨⟨fun hs => absurd hs (by decide), fun hc => absurd hc h1⟩,
      ⟨fun hs => absurd hs (by decide), fun hc => absurd hc.1 h2⟩,
      ⟨fun hs => absurd hs (by decide), fun hc => absurd hc.1 h3⟩,
      ⟨fun _ => not_le.mp h3, fun _ => rfl⟩⟩

/-- **C7.** `classify_embedding` fails with the empty-candidate error exactly
when no prototypes are supplied, fails with the dimension-mismatch error
exactly when (given some prototypes) the query length or some prototype
length is not 512, and succeeds exactly on valid inputs. -/
theorem classify_error_conditions (q : List ℝ) (ps : List (String × List ℝ)) :
    (classify_embedding q ps = .error .emptyCandidates ↔ ps = []) ∧
    (classify_embedding q ps = .error .dimensionMismatch ↔
      ps ≠ [] ∧ (q.length ≠ 512 ∨ ∃ p ∈ ps, (p.2).length ≠ 512)) ∧
    ((∃ r, classify_embedding q ps = .ok r) ↔
      ps ≠ [] ∧ q.length = 512 ∧ ∀ p ∈ ps, (p.2).length = 512) := by
  unfold classify_embedding
  split_ifs with h1 h2 h3
  · have hps : ps = [] := by simpa using h1
    refine ⟨⟨fun _ => hps, fun _ => rfl⟩,
      ⟨fun hs => absurd hs (by simp), fun hc => absurd hps hc.1⟩,
      ⟨fun hr => ?_, fun hc => absurd hps hc.1⟩⟩
    obtain ⟨r, hr⟩ := hr
    simp at hr
  · have hne : ps ≠ [] := by simpa using h1
    refine ⟨⟨fun hs => absurd hs (by simp), fun hps => absurd hps hne⟩,
      ⟨fun _ => ⟨hne, Or.inl h2⟩, fun _ => rfl⟩,
      ⟨fun hr => ?_, fun hc => absurd hc.2.1 h2⟩⟩
    obtain ⟨r, hr⟩ := hr
    simp at hr
  · have hne : ps ≠ [] := by simpa using h1
    have hex : ∃ p ∈ ps, (p.2).length ≠ 512 := by simpa using h3
    refine ⟨⟨fun hs => absurd hs (by simp), fun hps => absurd hps hne⟩,
      ⟨fun _ => ⟨hne, Or.inr hex⟩, fun _ => rfl⟩,
      ⟨fun hr => ?_, fun hc => ?_⟩⟩
    · obtain ⟨r, hr⟩ := hr
      simp at hr
    · obtain ⟨p, hp, hp512⟩ := hex
      exact absurd (hc.2.2 p hp) hp512
  · have hne : ps ≠ [] := by simpa using h1
    have hq : q.length = 512 := by simpa using h2
    have hall : ∀ p ∈ ps, (p.2).length = 512 := by
      intro p hp
      by_contra h512
      refine h3 (List.any_eq_true.mpr ?_)
      exact ⟨p, hp, by simpa using h512⟩
    refine ⟨⟨fun hs => ?_, fun hps => absurd hps hne⟩,
      ⟨fun hs => ?_, fun hc => ?_⟩,
      ⟨fun _ => ⟨hne, hq, hall⟩, fun _ => ⟨_, rfl⟩⟩⟩
    · simp at hs
    · simp at hs
    · rcases hc.2 with h | ⟨p, hp, hp512⟩
      · exact absurd hq h
      · exact absurd (hall p hp) hp512

/-- The sum of squared entries is nonnegative. -/
theorem sumSq_nonneg (xs : List ℝ) : 0 ≤ sumSq xs := by
  unfold sumSq
  induction xs with
  | nil => simp
  | cons a xs ih =>
      simp only [List.map_cons, List.sum_cons]
      nlinarith [mul_self_nonneg a]

/-- Cauchy-Schwarz for the list dot product (valid also for unequal lengths,
since `zipWith` truncates). -/
theorem dotR_sq_le_sumSq_mul (xs ys : List ℝ) :
    (dotR xs ys) ^ 2 ≤ sumSq xs * sumSq ys := by
  induction xs generalizing ys with
  | nil => simp [dotR, sumSq]
  | cons a xs ih =>
      cases ys with
      | nil => simp [dotR, sumSq, mul_zero]
      | cons b ys =>
          have h := ih ys
          have hX := sumSq_nonneg xs
          have hY := sumSq_nonneg ys
          simp only [dotR, sumSq, List.zipWith_cons_cons, List.map_cons,
            List.sum_cons] at h hX hY ⊢
          set d := (List.zipWith (· * ·) xs ys).sum with hd
          set X := (xs.map (fun x => x * x)).sum with hXd
          set Y := (ys.map (fun x => x * x)).sum with hYd
          rcases eq_or_lt_of_le hX with hX0 | hXpos
          · have hXz : X = 0 := hX0.symm
            rw [hXz] at h
            have hd0 : d = 0 := by nlinarith [sq_nonneg d]
            rw [hXz, hd0]
            nlinarith [mul_self_nonneg a, mul_self_nonneg b,
              mul_nonneg (mul_self_nonneg a) hY]
          · have key : X * (a * a * Y + b * b * X - 2 * (a * b) * d)
                = (a * d - b * X) ^ 2 + a * a * (X * Y - d ^ 2) := by ring
            have h1 : 0 ≤ (a * d - b * X) ^ 2 + a * a * (X * Y - d ^ 2) := by
              nlinarith [sq_nonneg (a * d - b * X), mul_self_nonneg a]
            have h2 : 0 ≤ a * a * Y + b * b * X - 2 * (a * b) * d := by
              nlinarith [key, h1, hXpos]
            nlinarith [h, h2]

/-- A zero Euclidean norm forces a zero sum of squares. -/
theorem sumSq_eq_zero_of_l2norm (xs : List ℝ) (h : l2norm xs = 0) :
    sumSq xs = 0 := by
  have hle : sumSq xs ≤ 0 := Real.sqrt_eq_zero'.mp h
  exact le_antisymm hle (sumSq_nonneg xs)

/-- Squared entries after dividing every entry by a constant. -/
theorem sumSq_map_div (xs : List ℝ) (c : ℝ) :
    sumSq (xs.map (fun x => x / c)) = sumSq xs / c ^ 2 := by
  induction xs with
  | nil => simp [sumSq]
  | cons a xs ih =>
      simp only [List.map_cons, sumSq, List.sum_cons] at ih ⊢
      rw [ih]
      ring

/-- A normalized embedding has sum of squares at most one (exactly one unless
the input was the zero vector, which is returned unchanged). -/
theorem sumSq_normalize_le_one (xs : List ℝ) :
    sumSq (normalize_embedding xs) ≤ 1 := by
  unfold normalize_embedding
  split_ifs with h
  · rw [sumSq_eq_zero_of_l2norm xs h]
    norm_num
  · rw [sumSq_map_div]
    have hs : l2norm xs ^ 2 = sumSq xs := Real.sq_sqrt (sumSq_nonneg xs)
    rw [hs]
    have hpos : 0 < sumSq xs := by
      rcases lt_or_eq_of_le (sumSq_nonneg xs) with hp | he
      · exact hp
      · exact absurd (by rw [l2norm, ← he, Real.sqrt_zero]) h
    rw [div_self (ne_of_gt hpos)]

/-- Every cosine similarity produced by `compute_cosine_similarity` lies in
the interval `[-1, 1]`. -/
theorem cosine_sim_mem_bounds (q : List ℝ) (ps : List (List ℝ)) (s : ℝ)
    (hs : s ∈ compute_cosine_similarity q ps) : -1 ≤ s ∧ s ≤ 1 := by
  unfold compute_cosine_similarity at hs
  obtain ⟨pn, hpn, rfl⟩ := List.mem_map.mp hs
  obtain ⟨p, hp, rfl⟩ := List.mem_map.mp hpn
  have h1 := dotR_sq_le_sumSq_mul (normalize_embedding p) (normalize_embedding q)
  have h2 := sumSq_normalize_le_one p
  have h3 := sumSq_normalize_le_one q
  have h4 := sumSq_nonneg (normalize_embedding p)
  have h5 := sumSq_nonneg (normalize_embedding q)
  constructor
  · nlinarith [sq_nonneg (dotR (normalize_embedding p) (normalize_embedding q) + 1)]
  · nlinarith [sq_nonneg (dotR (normalize_embedding p) (normalize_embedding q) - 1)]

/-- `argmaxFirst` returns an in-range position whose entry is a maximum of
the list. -/
theorem argmaxFirst_spec (xs : List ℝ) (hne : xs ≠ []) :
    argmaxFirst xs < xs.length ∧
    xs.getD (argmaxFirst xs) 0 ∈ xs ∧
    ∀ y ∈ xs, y ≤ xs.getD (argmaxFirst xs) 0 := by
  induction xs with
  | nil => exact absurd rfl hne
  | cons x xs ih =>
      cases xs with
      | nil => simp [argmaxFirst]
      | cons y ys =>
          obtain ⟨hlt, hmem, hmax⟩ := ih (by simp)
          have heq : argmaxFirst (x :: y :: ys) =
              (if x < (y :: ys).getD (argmaxFirst (y :: ys)) 0 then
                argmaxFirst (y :: ys) + 1 else 0) := rfl
          rw [heq]
          split_ifs with hcmp
          · refine ⟨by simpa using Nat.succ_lt_succ hlt, ?_, ?_⟩
            · simp only [List.getD_cons_succ]
              exact List.mem_cons_of_mem x hmem
            · intro z hz
              simp only [List.getD_cons_succ]
              rcases List.mem_cons.mp hz with rfl | hz
              · exact le_of_lt hcmp
              · exact hmax z hz
          · refine ⟨by simp, by simp, ?_⟩
            intro z hz
            simp only [List.getD_cons_zero]
            rcases List.mem_cons.mp hz with rfl | hz
            · exact le_refl z
            · exact le_trans (hmax z hz) (not_lt.mp hcmp)

/-- The similarity list is as long as the candidate list. -/
theorem compute_cosine_length (q : List ℝ) (ps : List (List ℝ)) :
    (compute_cosine_similarity q ps).length = ps.length := by
  simp [compute_cosine_similarity]

/-- **C3 amended.** Every classification produced by `classify_embedding`
reports confidence `(s + 1) / 2`, where `s` is the chosen best cosine
similarity (the maximum of the similarity list), and this confidence lies in
`[0, 1]`; the `serve.py` detection endpoint instead reports the raw best
similarity itself (see the counterexample). -/
theorem classifier_confidence_shifted_similarity (q : List ℝ)
    (ps : List (String × List ℝ)) (name : String) (conf : ℝ) (risk : String)
    (h : classify_embedding q ps = .ok (name, conf, risk)) :
    ∃ s : ℝ, (compute_cosine_similarity q (ps.map Prod.snd)).maximum = (s : WithBot ℝ) ∧
      conf = (s + 1) / 2 ∧ 0 ≤ conf ∧ conf ≤ 1 := by
  unfold classify_embedding at h
  split_ifs at h with h1 h2 h3
  have hok := Except.ok.inj h
  have hconf : conf =
      ((compute_cosine_similarity q (ps.map Prod.snd)).getD
        (argmaxFirst (compute_cosine_similarity q (ps.map Prod.snd))) 0 + 1) / 2 := by
    have hproj := congrArg (fun t => t.2.1) hok
    simpa using hproj.symm
  have hne : ps ≠ [] := by simpa using h1
  have hlen : (compute_cosine_similarity q (ps.map Prod.snd)).length = ps.length := by
    rw [compute_cosine_length, List.length_map]
  have hne2 : compute_cosine_similarity q (ps.map Prod.snd) ≠ [] := by
    intro h0
    exact hne (List.length_eq_zero.mp (by rw [← hlen, h0, List.length_nil]))
  obtain ⟨hlt, hmem, hmax⟩ := argmaxFirst_spec _ hne2
  obtain ⟨hb1, hb2⟩ := cosine_sim_mem_bounds q (ps.map Prod.snd) _ hmem
  refine ⟨(compute_cosine_similarity q (ps.map Prod.snd)).getD
      (argmaxFirst (compute_cosine_similarity q (ps.map Prod.snd))) 0,
    List.maximum_eq_coe_iff.mpr ⟨hmem, hmax⟩, hconf, ?_, ?_⟩
  · rw [hconf]; linarith
  · rw [hconf]; linarith

/-- Squares of a zero vector sum to zero. -/
theorem sumSq_replicate_zero (n : ℕ) : sumSq (List.replicate n (0 : ℝ)) = 0 := by
  simp [sumSq, List.map_replicate, List.sum_replicate]

/-- Dot product of zero vectors. -/
theorem dotR_replicate_zero (n : ℕ) :
    dotR (List.replicate n (0 : ℝ)) (List.replicate n 0) = 0 := by
  induction n with
  | zero => simp [dotR]
  | succ n ih =>
      simp only [List.replicate_succ, dotR, List.zipWith_cons_cons,
        List.sum_cons] at ih ⊢
      simp [ih]

/-- The concrete embedding `eOne` has unit sum of squares. -/
theorem sumSq_eOne : sumSq eOne = 1 := by
  have h := sumSq_replicate_zero 511
  simp only [eOne, sumSq, List.map_cons, List.sum_cons] at h ⊢
  rw [h]
  norm_num

/-- The concrete embedding `eOne` has unit norm. -/
theorem l2norm_eOne : l2norm eOne = 1 := by
  rw [l2norm, sumSq_eOne, Real.sqrt_one]

/-- Normalizing `eOne` leaves it unchanged. -/
theorem normalize_eOne : normalize_embedding eOne = eOne := by
  unfold normalize_embedding
  rw [l2norm_eOne, if_neg one_ne_zero]
  simp [div_one]

/-- `eOne` has unit self-similarity. -/
theorem dotR_eOne : dotR eOne eOne = 1 := by
  have h := dotR_replicate_zero 511
  simp only [eOne, dotR, List.zipWith_cons_cons, List.sum_cons] at h ⊢
  rw [h]
  norm_num

/-- The similarity list of `eOne` against itself. -/
theorem cosine_eOne : compute_cosine_similarity eOne [eOne] = [1] := by
  simp [compute_cosine_similarity, normalize_eOne, dotR_eOne]

set_option maxRecDepth 8192 in
/-- **C3 amended witness.** `classify_embedding` evaluated on the concrete
valid input `eOne` against the single prototype `eOne`: the chosen best
similarity is `1`, the confidence is `(1 + 1) / 2 = 1` and lies in `[0, 1]`. -/
theorem classifier_confidence_shifted_similarity_witness :
    classify_embedding eOne [("a", eOne)] = .ok ("a", 1, "critical") ∧
    (compute_cosine_similarity eOne ([("a", eOne)].map Prod.snd)).maximum =
      ((1 : ℝ) : WithBot ℝ) ∧
    (1 : ℝ) = ((1 : ℝ) + 1) / 2 ∧ (0 : ℝ) ≤ 1 ∧ (1 : ℝ) ≤ 1 := by
  have hlen512 : eOne.length = 512 := by simp [eOne]
  have h21 : ((1 : ℝ) + 1) / 2 = 1 := by norm_num
  have hrisk : determine_risk_level 1 = "critical" := by
    unfold determine_risk_level
    rw [if_pos (by norm_num : (1 : ℝ) ≥ 0.95)]
  have hok : classify_embedding eOne [("a", eOne)] = .ok ("a", 1, "critical") := by
    unfold classify_embedding
    rw [if_neg (by simp), if_neg (by simp [hlen512]), if_neg (by simp [hlen512])]
    simp only [List.map_cons, List.map_nil, cosine_eOne]
    simp [argmaxFirst, h21, hrisk]
  obtain ⟨s, hmax, hconf, hz, ho⟩ :=
    classifier_confidence_shifted_similarity eOne [("a", eOne)] "a" 1 "critical" hok
  have hs : s = 1 := by
    have : (1 : ℝ) = (s + 1) / 2 := hconf
    linarith
  rw [hs] at hmax
  exact ⟨hok, hmax, by norm_num, by norm_num, le_refl 1⟩

/-- A vector with zero sum of squares has only zero entries. -/
theorem entries_zero_of_sumSq_eq_zero (xs : List ℝ) (h : sumSq xs = 0) :
    ∀ x ∈ xs, x = 0 := by
  induction xs with
  | nil => simp
  | cons a xs ih =>
      simp only [sumSq, List.map_cons, List.sum_cons] at h
      have hX : 0 ≤ sumSq xs := sumSq_nonneg xs
      simp only [sumSq] at hX
      have ha : a * a = 0 := by nlinarith [mul_self_nonneg a]
      have hX0 : sumSq xs = 0 := by
        simp only [sumSq]
        nlinarith [mul_self_nonneg a]
      intro x hx
      rcases List.mem_cons.mp hx with rfl | hx
      · exact mul_self_eq_zero.mp ha
      · exact ih hX0 x hx

/-- The dot product with an all-zero right operand is zero. -/
theorem dotR_right_zero (xs ys : List ℝ) (h : ∀ y ∈ ys, y = 0) :
    dotR xs ys = 0 := by
  induction xs generalizing ys with
  | nil => simp [dotR]
  | cons a xs ih =>
      cases ys with
      | nil => simp [dotR]
      | cons b ys =>
          have hb : b = 0 := h b (by simp)
          have hrest := ih ys (fun y hy => h y (by simp [hy]))
          simp only [dotR, List.zipWith_cons_cons, List.sum_cons] at hrest ⊢
          rw [hb, hrest]
          ring

/-- The dot product with an all-zero left operand is zero. -/
theorem dotR_left_zero (xs ys : List ℝ) (h : ∀ x ∈ xs, x = 0) :
    dotR xs ys = 0 := by
  induction xs generalizing ys with
  | nil => simp [dotR]
  | cons a xs ih =>
      cases ys with
      | nil => simp [dotR]
      | cons b ys =>
          have ha : a = 0 := h a (by simp)
          have hrest := ih ys (fun x hx => h x (by simp [hx]))
          simp only [dotR, List.zipWith_cons_cons, List.sum_cons] at hrest ⊢
          rw [ha, hrest]
          ring

/-- **C10.** The normalization and cosine-similarity helpers are total on
zero-norm inputs: `normalize_embedding` returns a zero-norm vector unchanged
instead of dividing by zero, and `compute_cosine_similarity` returns
similarity `0` for a zero-norm query against every candidate, and `0` at the
position of every zero-norm prototype. -/
theorem normalize_cosine_total (xs q : List ℝ) (ps : List (List ℝ)) :
    (l2norm xs = 0 → normalize_embedding xs = xs) ∧
    (l2norm q = 0 → ∀ s ∈ compute_cosine_similarity q ps, s = 0) ∧
    (∀ i, ∀ hi : i < ps.length, l2norm (ps.get ⟨i, hi⟩) = 0 →
      ∀ hj : i < (compute_cosine_similarity q ps).length,
        (compute_cosine_similarity q ps).get ⟨i, hj⟩ = 0) := by
  refine ⟨fun h => ?_, fun h s hs => ?_, fun i hi hzero hj => ?_⟩
  · unfold normalize_embedding
    rw [if_pos h]
  · unfold compute_cosine_similarity at hs
    obtain ⟨pn, hpn, rfl⟩ := List.mem_map.mp hs
    have hq : normalize_embedding q = q := by
      unfold normalize_embedding
      rw [if_pos h]
    rw [hq]
    exact dotR_right_zero pn q
      (entries_zero_of_sumSq_eq_zero q (sumSq_eq_zero_of_l2norm q h))
  · have hval : (compute_cosine_similarity q ps).get ⟨i, hj⟩ =
        dotR (normalize_embedding (ps.get ⟨i, hi⟩)) (normalize_embedding q) := by
      simp [compute_cosine_similarity, List.get_eq_getElem]
    rw [hval]
    have hp : normalize_embedding (ps.get ⟨i, hi⟩) = ps.get ⟨i, hi⟩ := by
      unfold normalize_embedding
      rw [if_pos hzero]
    rw [hp]
    exact dotR_left_zero _ _
      (entries_zero_of_sumSq_eq_zero _ (sumSq_eq_zero_of_l2norm _ hzero))

/-- **C10 witness.** The zero vector is returned unchanged by normalization,
and the cosine similarity of a unit prototype against the zero query is `0`. -/
theorem normalize_cosine_total_witness :
    normalize_embedding [(0 : ℝ), 0] = [(0 : ℝ), 0] ∧
    dotR (normalize_embedding [(1 : ℝ), 0]) (normalize_embedding [(0 : ℝ), 0]) = 0 := by
  have hz : l2norm [(0 : ℝ), 0] = 0 := by
    have : sumSq [(0 : ℝ), 0] = 0 := by simp [sumSq]
    rw [l2norm, this, Real.sqrt_zero]
  obtain ⟨h1, h2, h3⟩ := normalize_cosine_total [(0 : ℝ), 0] [(0 : ℝ), 0] [[(1 : ℝ), 0]]
  refine ⟨h1 hz, ?_⟩
  apply h2 hz
  simp [compute_cosine_similarity]

/-- **C9.** `PrototypicalLoss.forward` evaluated on a well-formed 2-way
episode whose class labels are the raw dataset labels `{0, 2}` (support
first, `K = 1`, `Q = 1`): every query's nearest episode-local prototype is
its own class's prototype (predictions `[0, 1]` index the prototype list,
whose labels are `[0, 2]`, matching the query labels `[0, 2]`), so the
specified loss and accuracy are well defined with accuracy 1 — yet the
forward pass aborts (`none`), because the loss line gathers
`log_probs[r, query_labels]` with the raw label `2` into a matrix with only
2 prototype columns. -/
theorem prototypical_loss_label_gather_out_of_bounds :
    protoForward [[0, 0], [0, 1], [5, 5], [5, 6]] [0, 0, 2, 2] 1 = none ∧
    protoPredictions [[0, 0], [0, 1], [5, 5], [5, 6]] [0, 0, 2, 2] 1 = [0, 1] ∧
    protoQueryLabels [0, 0, 2, 2] 1 = [0, 2] ∧
    protoPrototypeLabels [0, 0, 2, 2] 1 = [0, 2] := by
  have hql : protoQueryLabels [0, 0, 2, 2] 1 = [0, 2] := by decide
  have hpl : protoPrototypeLabels [0, 0, 2, 2] 1 = [0, 2] := by decide
  have hsup : supportIdx [0, 0, 2, 2] 1 = [0, 2] := by decide
  have hqi : queryIdx [0, 0, 2, 2] 1 = [1, 3] := by decide
  have hprotos : protoPrototypes [[0, 0], [0, 1], [5, 5], [5, 6]] [0, 0, 2, 2] 1
      = [[0, 0], [5, 5]] := by
    simp only [protoPrototypes, hpl, hsup, List.map_cons, List.map_nil]
    norm_num [meanVec, List.filterMap]
  have hdist : protoDistances [[0, 0], [0, 1], [5, 5], [5, 6]] [0, 0, 2, 2] 1
      = [[1, 41], [61, 1]] := by
    simp only [protoDistances, hqi, hprotos, List.map_cons, List.map_nil]
    norm_num [sqDist]
  have hpred : protoPredictions [[0, 0], [0, 1], [5, 5], [5, 6]] [0, 0, 2, 2] 1
      = [0, 1] := by
    simp only [protoPredictions, hdist, List.map_cons, List.map_nil]
    norm_num [argminFirstQ]
  refine ⟨?_, hpred, hql, hpl⟩
  simp [protoForward, hql, hprotos]

/-- The keys of the grouping map after one insertion: unchanged if the label
is present, extended at the back otherwise. -/
theorem addIndex_map_fst (acc : List (ℕ × List ℕ)) (l i : ℕ) :
    (addIndex acc l i).map Prod.fst =
      if l ∈ acc.map Prod.fst then acc.map Prod.fst
      else acc.map Prod.fst ++ [l] := by
  induction acc with
  | nil => simp [addIndex]
  | cons e acc ih =>
      obtain ⟨k, js⟩ := e
      by_cases hk : k = l
      · subst hk
        simp [addIndex]
      · simp only [addIndex, if_neg hk, List.map_cons, ih]
        by_cases hm : l ∈ acc.map Prod.fst
        · simp [hm, Ne.symm hk]
        · simp [hm, Ne.symm hk]

/-- Inserting an index keeps the keys of the grouping map distinct. -/
theorem addIndex_keys_nodup (acc : List (ℕ × List ℕ)) (l i : ℕ)
    (h : (acc.map Prod.fst).Nodup) :
    ((addIndex acc l i).map Prod.fst).Nodup := by
  rw [addIndex_map_fst]
  split_ifs with hm
  · exact h
  · rw [List.nodup_append]
    exact ⟨h, List.nodup_singleton l,
      fun a ha hb => hm ((List.mem_singleton.mp hb) ▸ ha)⟩

/-- The grouping fold keeps keys distinct. -/
theorem foldl_addIndex_keys_nodup (ps : List (ℕ × ℕ)) :
    ∀ acc : List (ℕ × List ℕ), (acc.map Prod.fst).Nodup →
      ((ps.foldl (fun a p => addIndex a p.2 p.1) acc).map Prod.fst).Nodup := by
  induction ps with
  | nil => intro acc h; exact h
  | cons p ps ih =>
      intro acc h
      simp only [List.foldl_cons]
      exact ih _ (addIndex_keys_nodup acc p.2 p.1 h)

/-- `class_indices` has one entry per label. -/
theorem classIndices_keys_nodup (labels : List ℕ) :
    ((classIndices labels).map Prod.fst).Nodup := by
  unfold classIndices
  exact foldl_addIndex_keys_nodup labels.enum [] (by simp)

/-- With distinct keys, `lookup` of a member's key returns its value. -/
theorem lookup_of_mem_keys_nodup {β : Type} (ps : List (ℕ × β))
    (h : (ps.map Prod.fst).Nodup) (p : ℕ × β) (hp : p ∈ ps) :
    ps.lookup p.1 = some p.2 := by
  induction ps with
  | nil => cases hp
  | cons q ps ih =>
      obtain ⟨k, b⟩ := q
      rcases List.mem_cons.mp hp with rfl | hp2
      · simp [List.lookup]
      · have hk : k ≠ p.1 := by
          intro he
          have hmem : p.1 ∈ ps.map Prod.fst := List.mem_map.mpr ⟨p, hp2, rfl⟩
          rw [List.map_cons] at h
          exact (List.nodup_cons.mp h).1 (he ▸ hmem)
        have hbeq : (p.1 == k) = false := beq_eq_false_iff_ne.mpr (Ne.symm hk)
        simp only [List.lookup, hbeq]
        exact ih (List.nodup_cons.mp (List.map_cons Prod.fst _ _ ▸ h)).2 hp2

/-- A successful `lookup` comes from a member entry. -/
theorem mem_of_lookup_eq_some {β : Type} (ps : List (ℕ × β)) (a : ℕ) (b : β)
    (h : ps.lookup a = some b) : (a, b) ∈ ps := by
  induction ps with
  | nil => cases h
  | cons q ps ih =>
      obtain ⟨k, c⟩ := q
      by_cases hk : k = a
      · subst hk
        simp only [List.lookup, beq_self_eq_true] at h
        simp [Option.some.inj h]
      · have hbeq : (a == k) = false := beq_eq_false_iff_ne.mpr (Ne.symm hk)
        simp only [List.lookup, hbeq] at h
        exact List.mem_cons_of_mem _ (ih h)

/-- Every valid class has at least the required number of recorded sample
indices. -/
theorem validClasses_spec (labels : List ℕ) (m : ℕ) (cls : ℕ)
    (h : cls ∈ validClasses labels m) :
    m ≤ (lookupIndices labels cls).length := by
  unfold validClasses at h
  obtain ⟨p, hpf, rfl⟩ := List.mem_map.mp h
  have hmem : p ∈ classIndices labels := List.mem_of_mem_filter hpf
  have hcond : m ≤ p.2.length := by simpa using List.of_mem_filter hpf
  have hl := lookup_of_mem_keys_nodup _ (classIndices_keys_nodup labels) p hmem
  unfold lookupIndices
  rw [hl]
  simpa using hcond

/-- Where an entry of `addIndex acc l i` can come from. -/
theorem mem_addIndex (acc : List (ℕ × List ℕ)) (l i : ℕ) (e : ℕ × List ℕ)
    (he : e ∈ addIndex acc l i) :
    e ∈ acc ∨ (∃ e0 ∈ acc, e0.1 = l ∧ e = (e0.1, e0.2 ++ [i])) ∨ e = (l, [i]) := by
  induction acc with
  | nil =>
      right; right
      simpa [addIndex] using he
  | cons q acc ih =>
      obtain ⟨k, js⟩ := q
      by_cases hk : k = l
      · subst hk
        simp only [addIndex, if_pos rfl] at he
        rcases List.mem_cons.mp he with rfl | h2
        · exact Or.inr (Or.inl ⟨(k, js), by simp, rfl, rfl⟩)
        · exact Or.inl (List.mem_cons_of_mem _ h2)
      · simp only [addIndex, if_neg hk] at he
        rcases List.mem_cons.mp he with rfl | h2
        · exact Or.inl (by simp)
        · rcases ih h2 with h | ⟨e0, he0, h1, h2e⟩ | h
          · exact Or.inl (List.mem_cons_of_mem _ h)
          · exact Or.inr (Or.inl ⟨e0, List.mem_cons_of_mem _ he0, h1, h2e⟩)
          · exact Or.inr (Or.inr h)

/-- The grouping fold keeps every per-class index list free of duplicates,
as long as the incoming positions are fresh and pairwise distinct. -/
theorem foldl_addIndex_lists_nodup (ps : List (ℕ × ℕ)) :
    ∀ acc : List (ℕ × List ℕ),
      (∀ e ∈ acc, e.2.Nodup) →
      (∀ e ∈ acc, ∀ j ∈ e.2, j ∉ ps.map Prod.fst) →
      (ps.map Prod.fst).Nodup →
      ∀ e ∈ ps.foldl (fun a p => addIndex a p.2 p.1) acc, e.2.Nodup := by
  induction ps with
  | nil => intro acc h1 _ _ e he; exact h1 e he
  | cons p ps ih =>
      intro acc h1 h2 h3 e he
      simp only [List.foldl_cons] at he
      refine ih (addIndex acc p.2 p.1) ?_ ?_ ?_ e he
      · intro e2 he2
        rcases mem_addIndex acc p.2 p.1 e2 he2 with h | ⟨e0, he0, hk, rfl⟩ | rfl
        · exact h1 e2 h
        · have hn := h1 e0 he0
          have hnotin : p.1 ∉ e0.2 := fun hin => h2 e0 he0 p.1 hin (by simp)
          rw [List.nodup_append]
          exact ⟨hn, List.nodup_singleton _,
            fun a ha hb => hnotin ((List.mem_singleton.mp hb) ▸ ha)⟩
        · simp
      · intro e2 he2 j hj
        rcases mem_addIndex acc p.2 p.1 e2 he2 with h | ⟨e0, he0, hk, rfl⟩ | rfl
        · intro hmem
          exact h2 e2 h j hj (by simp [hmem])
        · rcases List.mem_append.mp hj with hj0 | hj1
          · intro hmem
            exact h2 e0 he0 j hj0 (by simp [hmem])
          · have hji : j = p.1 := by simpa using hj1
            subst hji
            rw [List.map_cons] at h3
            exact (List.nodup_cons.mp h3).1
        · have hji : j = p.1 := by simpa using hj
          subst hji
          rw [List.map_cons] at h3
          exact (List.nodup_cons.mp h3).1
      · rw [List.map_cons] at h3
        exact (List.nodup_cons.mp h3).2

/-- Every per-class index list of `class_indices` is free of duplicates. -/
theorem classIndices_lists_nodup (labels : List ℕ) :
    ∀ e ∈ classIndices labels, e.2.Nodup := by
  unfold classIndices
  exact foldl_addIndex_lists_nodup labels.enum [] (by simp) (by simp)
    (List.nodup_enum_map_fst labels)

/-- The recorded sample indices of any class are pairwise distinct. -/
theorem lookupIndices_nodup (labels : List ℕ) (cls : ℕ) :
    (lookupIndices labels cls).Nodup := by
  unfold lookupIndices
  cases hl : (classIndices labels).lookup cls with
  | none => simp
  | some js =>
      simp only [Option.getD_some]
      exact classIndices_lists_nodup labels (cls, js)
        (mem_of_lookup_eq_some _ cls js hl)

/-- **C8.** For any permutations supplied for `torch.randperm`, every class
chosen by the episodic sampler has at least `K + Q` available samples (only
valid classes are eligible), and from each chosen class exactly `K + Q`
pairwise-distinct sample indices of that class are drawn. -/
theorem episodic_sampler_sound (labels : List ℕ) (N K Q : ℕ)
    (classPerm : List ℕ) (idxPerms : ℕ → List ℕ)
    (hcp : classPerm.Perm (List.range (validClasses labels (K + Q)).length))
    (hip : ∀ cls ∈ chosenClasses labels N K Q classPerm,
      (idxPerms cls).Perm (List.range (lookupIndices labels cls).length)) :
    ∀ cls ∈ chosenClasses labels N K Q classPerm,
      K + Q ≤ (lookupIndices labels cls).length ∧
      (drawnFor labels K Q (idxPerms cls) cls).length = K + Q ∧
      (drawnFor labels K Q (idxPerms cls) cls).Nodup ∧
      ∀ j ∈ drawnFor labels K Q (idxPerms cls) cls, j ∈ lookupIndices labels cls := by
  intro cls hcls
  have hclsv : cls ∈ validClasses labels (K + Q) := by
    unfold chosenClasses at hcls
    obtain ⟨i, hi, rfl⟩ := List.mem_map.mp hcls
    have hiP : i ∈ classPerm := List.mem_of_mem_take hi
    have hilt : i < (validClasses labels (K + Q)).length :=
      List.mem_range.mp (hcp.mem_iff.mp hiP)
    rw [List.getD_eq_getElem _ _ hilt]
    exact List.getElem_mem _
  have hKQ : K + Q ≤ (lookupIndices labels cls).length :=
    validClasses_spec labels (K + Q) cls hclsv
  have hperm := hip cls hcls
  have hplen : (idxPerms cls).length = (lookupIndices labels cls).length := by
    simpa using hperm.length_eq
  have hnodupP : (idxPerms cls).Nodup := hperm.nodup_iff.mpr (List.nodup_range _)
  have htlen : ((idxPerms cls).take (K + Q)).length = K + Q := by
    rw [List.length_take, hplen]
    exact min_eq_left hKQ
  have htmem : ∀ j ∈ (idxPerms cls).take (K + Q),
      j < (lookupIndices labels cls).length := by
    intro j hj
    exact List.mem_range.mp (hperm.mem_iff.mp (List.mem_of_mem_take hj))
  have htnodup : ((idxPerms cls).take (K + Q)).Nodup :=
    hnodupP.sublist (List.take_sublist _ _)
  refine ⟨hKQ, ?_, ?_, ?_⟩
  · unfold drawnFor
    rw [List.length_map, htlen]
  · unfold drawnFor
    refine List.Nodup.map_on ?_ htnodup
    intro j1 hj1 j2 hj2 heq
    have h1 := htmem j1 hj1
    have h2 := htmem j2 hj2
    rw [List.getD_eq_getElem _ _ h1, List.getD_eq_getElem _ _ h2] at heq
    have hnd := lookupIndices_nodup labels cls
    have hfin : (⟨j1, h1⟩ : Fin (lookupIndices labels cls).length) = ⟨j2, h2⟩ :=
      List.nodup_iff_injective_getElem.mp hnd heq
    simpa using hfin
  · intro j hj
    unfold drawnFor at hj
    obtain ⟨j0, hj0, rfl⟩ := List.mem_map.mp hj
    have hb := htmem j0 hj0
    rw [List.getD_eq_getElem _ _ hb]
    exact List.getElem_mem _

/-- **C8 witness.** A concrete dataset with classes `0`, `1` (two samples
each) and `2` (one sample): with `K = Q = 1` the sampler's eligible pool is
`[0, 1]`, and for the chosen class `1` exactly two distinct indices of that
class are drawn. -/
theorem episodic_sampler_sound_witness :
    1 + 1 ≤ (lookupIndices [0, 0, 1, 1, 2] 1).length ∧
    (drawnFor [0, 0, 1, 1, 2] 1 1 [0, 1] 1).length = 1 + 1 ∧
    (drawnFor [0, 0, 1, 1, 2] 1 1 [0, 1] 1).Nodup := by
  have h := episodic_sampler_sound [0, 0, 1, 1, 2] 2 1 1 [1, 0]
    (fun cls => if cls = 0 then [1, 0] else if cls = 1 then [0, 1] else [])
    (by decide) (by decide) 1 (by decide)
  exact ⟨h.1, h.2.1, h.2.2.1⟩
